import Mathlib

/-!
Verification development for two components of the rekor repository:

* `cmd/rekor-server/app/flags.go` — the `LogRangesFlag` shard-range flag:
  its parser `Set`, its renderer `String`, and the associated error modes.
* `cmd/backfill-redis/main.go` — the backfill runner that walks a range of
  log indices, retrieves the entries stored at each index, decodes them,
  extracts index keys and writes `(key, uuid)` records to Redis.

The Go code is embedded shallowly.  Strings are handled at the character
level: `strings.Split(s, ",")` and `strings.SplitN(r, "=", 2)` become the
char-list functions `splitChar` and `splitFirst` (both separators used by
the source are single characters), and `strconv.ParseUint(s, 10, 64)`
becomes `parseUint64`, which accepts a non-empty all-digit string whose
decimal value is below `2 ^ 64` and rejects everything else, mirroring the
syntax/range error split of the Go standard library.

The backfill runner is embedded as a function of its external
collaborators: the rekor retrieval endpoint, the entry decoder
(`unmarshalEntryImpl`), the `IndexKeys` method of a decoded entry and the
Redis `LPUSH` wrapper `addToIndex` are oracles passed in as functions.
The observable behaviour of a run — the lines it prints, the writes it
attempts and whether `log.Fatalf` fired — is collected in a `RunResult`.
-/

/-- Character-level model of Go `strings.Split s sep` for a one-character
separator: splitting the empty string yields `[[]]`, and separators at the
ends produce empty fields, exactly as in Go. -/
def splitChar (sep : Char) : List Char → List (List Char)
  | [] => [[]]
  | c :: cs =>
    if c = sep then [] :: splitChar sep cs
    else
      match splitChar sep cs with
      | [] => [[c]]
      | t :: ts => (c :: t) :: ts

/-- Character-level model of Go `strings.SplitN r sep 2` for a
one-character separator: `none` when the separator does not occur
(Go returns a one-element slice), otherwise the text before and after the
first occurrence (Go returns a two-element slice). -/
def splitFirst (sep : Char) : List Char → Option (List Char × List Char)
  | [] => none
  | c :: cs =>
    if c = sep then some ([], cs)
    else
      match splitFirst sep cs with
      | none => none
      | some (a, b) => some (c :: a, b)

/-- Character-level model of Go `strings.Join toks sep` for a
one-character separator. -/
def joinChar (sep : Char) : List (List Char) → List Char
  | [] => []
  | [t] => t
  | t :: ts => t ++ sep :: joinChar sep ts

/-- Decimal value of a character list, accumulated left to right exactly
as the digit loop of Go `strconv.ParseUint` does. -/
def decVal (cs : List Char) : Nat :=
  cs.foldl (fun a c => a * 10 + (c.toNat - 48)) 0

/-- Error values produced by `LogRangesFlag.Set`.  `missingSeparator` is
the `fmt.Errorf` for a token without `=`; `badNumber` and `numberRange`
are the syntax and range errors of `strconv.ParseUint`; `duplicateTreeID`
is the `fmt.Errorf` for a repeated tree id.  The spec groups the first
three as `FormatError` and the last as `DuplicateShardError`. -/
inductive SetError where
  | missingSeparator (token : String)
  | badNumber (field : String)
  | numberRange (field : String)
  | duplicateTreeID (id : Nat)
deriving DecidableEq

/-- The spec category `FormatError`: every `Set` failure except the
duplicate-tree-id failure. -/
def SetError.isFormatError : SetError → Bool
  | .missingSeparator _ => true
  | .badNumber _ => true
  | .numberRange _ => true
  | .duplicateTreeID _ => false

/-- Model of Go `strconv.ParseUint (String.mk cs) 10 64`: the input must
be non-empty, all decimal digits, and denote a value below `2 ^ 64`;
otherwise a syntax or range error results. -/
def parseUint64 (cs : List Char) : Except SetError Nat :=
  if cs.isEmpty then .error (.badNumber (String.mk cs))
  else if cs.all Char.isDigit then
    if decVal cs < 2 ^ 64 then .ok (decVal cs) else .error (.numberRange (String.mk cs))
  else .error (.badNumber (String.mk cs))

/-- Model of `api.LogRange`: a shard descriptor.  `TreeLength` is the Go
zero value `0` for the active (last) shard, which the source never sets. -/
structure LogRange where
  TreeID : Nat
  TreeLength : Nat
deriving DecidableEq

/-- Model of `api.LogRanges`. -/
structure LogRanges where
  Ranges : List LogRange
deriving DecidableEq

/-- Model of `app.LogRangesFlag`. -/
structure LogRangesFlag where
  Ranges : LogRanges
deriving DecidableEq

/-- The historical-token loop of `LogRangesFlag.Set`: for each token,
split on the first `=` (error if absent), parse both halves as uint64,
and emit a `LogRange`; the first error aborts the loop, as the early
returns do in Go. -/
def parseHistorical : List (List Char) → Except SetError (List LogRange)
  | [] => .ok []
  | t :: rest =>
    match splitFirst '=' t with
    | none => .error (.missingSeparator (String.mk t))
    | some (a, b) =>
      match parseUint64 a with
      | .error e => .error e
      | .ok tid =>
        match parseUint64 b with
        | .error e => .error e
        | .ok len =>
          match parseHistorical rest with
          | .error e => .error e
          | .ok tl => .ok (⟨tid, len⟩ :: tl)

/-- The duplicate-tree-id scan of `LogRangesFlag.Set`: walk the ranges in
order, keeping the set of seen ids, and report the first id already
seen. -/
def findDuplicate (seen : List Nat) : List LogRange → Option Nat
  | [] => none
  | lr :: rest =>
    if lr.TreeID ∈ seen then some lr.TreeID
    else findDuplicate (lr.TreeID :: seen) rest

/-- The last element of a token list, `ranges[len(ranges)-1]` in the
source; the empty default is unreachable because `splitChar` never
returns an empty list. -/
def lastToken : List (List Char) → List Char
  | [] => []
  | [t] => t
  | _ :: ts => lastToken ts

/-- Model of `LogRangesFlag.Set`.  The receiver is reset to the empty
`LogRanges` before parsing (`l.Ranges = api.LogRanges{}` in the source),
so every error path leaves the empty configuration behind; the result
pairs the final receiver value with the returned error, `none` meaning
the Go `nil` error.  The unused parameter mirrors the Go receiver, whose
prior value never influences the outcome. -/
def LogRangesFlag.Set (_l : LogRangesFlag) (s : String) : LogRangesFlag × Option SetError :=
  match parseHistorical (splitChar ',' s.data).dropLast with
  | .error e => (⟨⟨[]⟩⟩, some e)
  | .ok hist =>
    match parseUint64 (lastToken (splitChar ',' s.data)) with
    | .error e => (⟨⟨[]⟩⟩, some e)
    | .ok lastTid =>
      match findDuplicate [] (hist ++ [⟨lastTid, 0⟩]) with
      | some d => (⟨⟨[]⟩⟩, some (.duplicateTreeID d))
      | none => (⟨⟨hist ++ [⟨lastTid, 0⟩]⟩⟩, none)

/-- Bounded-fuel decimal rendering helper; with fuel above the digit
count it produces the decimal digits of `n`, most significant first. -/
def natDigitsAux : Nat → Nat → List Char
  | 0, _ => []
  | fuel + 1, n =>
    if n < 10 then [Char.ofNat (48 + n)]
    else natDigitsAux fuel (n / 10) ++ [Char.ofNat (48 + n % 10)]

/-- Model of Go `fmt.Sprintf "%d" n` for an unsigned integer: canonical
decimal digits, no leading zeros, `"0"` for zero. -/
def natDigits (n : Nat) : List Char :=
  natDigitsAux (n + 1) n

/-- One shard as rendered by `LogRangesFlag.String`:
`fmt.Sprintf "%d=%d" r.TreeID r.TreeLength`. -/
def renderRange (r : LogRange) : List Char :=
  natDigits r.TreeID ++ '=' :: natDigits r.TreeLength

/-- Model of `LogRangesFlag.Type`. -/
def LogRangesFlag.typeName (_ : LogRangesFlag) : String :=
  "LogRangesFlag"

/-- Model of `LogRangesFlag.String`: render every range as
`treeID=length` and join with commas, in stored order. -/
def LogRangesFlag.String (l : LogRangesFlag) : String :=
  String.mk (joinChar ',' (l.Ranges.Ranges.map renderRange))

/-- Decidable form of the acceptance condition of `parseUint64`. -/
def validUInt64 (cs : List Char) : Bool :=
  !cs.isEmpty && cs.all Char.isDigit && decide (decVal cs < 2 ^ 64)

/-- A non-last token on which the historical-token loop fails: either no
`=` is present, or one of the two halves is rejected by `parseUint64`. -/
def badHistTok (t : List Char) : Bool :=
  match splitFirst '=' t with
  | none => true
  | some (a, b) => !validUInt64 a || !validUInt64 b

/-- Builds the flag input whose non-last tokens are `p.1=p.2` for the
listed pairs of digit strings and whose last token is `lastTok`. -/
def mkInput (toks : List (List Char × List Char)) (lastTok : List Char) : String :=
  String.mk (joinChar ',' (toks.map (fun p => p.1 ++ '=' :: p.2) ++ [lastTok]))

/-- Canonical decimal token `a=b` for a pair of values. -/
def canonTok (p : Nat × Nat) : List Char :=
  natDigits p.1 ++ '=' :: natDigits p.2

/-- Builds the flag input whose tokens are the canonical decimal
renderings of the given historical `(treeID, length)` pairs followed by
the bare active tree id. -/
def mkCanonInput (hist : List (Nat × Nat)) (lastT : Nat) : String :=
  String.mk (joinChar ',' (hist.map canonTok ++ [natDigits lastT]))

/-!
Embedding of `cmd/backfill-redis/main.go`.

The per-run observable behaviour is a list of `Event`s in emission order
(one per `fmt.Printf` or `log.Fatalf` in the source), the list of
`addToIndex` calls attempted (each a `(key, uuid)` pair, in call order),
and an `Option Int` recording the index at which `log.Fatalf` terminated
the process, `none` when the loop ran to completion.
-/

/-- One observable step of the backfill runner, in source order:
the three error printfs of the per-index loop, the unconditional
per-write `Uploaded Redis entry` printf, the two per-index summary
printfs, and the `log.Fatalf` on retrieval failure. -/
inductive Event where
  | unmarshalFailure (uuid msg : String)
  | indexKeysFailure (uuid msg : String)
  | insertFailure (uuid key msg : String)
  | uploaded (uuid : String) (index : Int) (key : String)
  | completed (index : Int)
  | errorsAt (index : Int)
  | fatalRetrieval (msg : String)
deriving DecidableEq

/-- Whether an event records a per-entry or per-key failure (a decode,
key-extraction or index-write failure). -/
def Event.isFailure : Event → Bool
  | .unmarshalFailure _ _ => true
  | .indexKeysFailure _ _ => true
  | .insertFailure _ _ _ => true
  | _ => false

/-- Trace of one backfill run: printed events, attempted index writes,
and the index at which the run died fatally, if any. -/
structure RunResult where
  events : List Event
  attempts : List (String × String)
  fatal : Option Int
deriving DecidableEq

/-- The inner key loop of the runner: for every key, `addToIndex` is
attempted exactly once; on failure the per-index success flag drops to
`false` and the error printf fires, and in either case the
`Uploaded Redis entry` printf fires — the source has no `continue` after
the error branch, so the upload line prints even for failed writes. -/
def processKeys (append : String → String → Option String) (i : Int) (uuid : String) :
    List String → List Event × List (String × String) × Bool
  | [] => ([], [], true)
  | key :: rest =>
    let t := processKeys append i uuid rest
    match append key uuid with
    | some msg =>
      (Event.insertFailure uuid key msg :: Event.uploaded uuid i key :: t.1,
       (key, uuid) :: t.2.1, false)
    | none =>
      (Event.uploaded uuid i key :: t.1, (key, uuid) :: t.2.1, t.2.2)

/-- Processing of one retrieved `(uuid, body)` pair: decode via
`unmarshalEntryImpl` (oracle `decode`), extract keys via `IndexKeys`
(oracle `indexKeys`), then run the key loop; a decode or key-extraction
failure prints one error line, skips the rest of the pair (`continue` in
the source) and drops the per-index success flag. -/
def processPair {α : Type} (decode : String → Except String α)
    (indexKeys : α → Except String (List String))
    (append : String → String → Option String) (i : Int) (uuid body : String) :
    List Event × List (String × String) × Bool :=
  match decode body with
  | .error msg => ([Event.unmarshalFailure uuid msg], [], false)
  | .ok e =>
    match indexKeys e with
    | .error msg => ([Event.indexKeysFailure uuid msg], [], false)
    | .ok keys => processKeys append i uuid keys

/-- Processing of all pairs retrieved for one index: pairs are handled in
enumeration order, their events and write attempts concatenate, and the
per-index success flag is the conjunction of the per-pair flags (the Go
`success` variable starts `true` and is only ever set to `false`). -/
def processIndex {α : Type} (decode : String → Except String α)
    (indexKeys : α → Except String (List String))
    (append : String → String → Option String) (i : Int) :
    List (String × String) → List Event × List (String × String) × Bool
  | [] => ([], [], true)
  | p :: rest =>
    let h := processPair decode indexKeys append i p.1 p.2
    let t := processIndex decode indexKeys append i rest
    (h.1 ++ t.1, h.2.1 ++ t.2.1, h.2.2 && t.2.2)

/-- The indices visited by `for i := s; i <= e; i++`, built from a fuel
count. -/
def intRangeAux (s : Int) : Nat → List Int
  | 0 => []
  | n + 1 => s :: intRangeAux (s + 1) n

/-- The inclusive index range `[s, e]`, empty when `e < s`. -/
def indexRange (s e : Int) : List Int :=
  intRangeAux s (e + 1 - s).toNat

/-- The main loop of the runner over an explicit list of indices.  A
retrieval failure at the head index fires `log.Fatalf` — the run ends at
once with only the fatal event, no per-index outcome for that index and
no later index attempted.  On successful retrieval the per-index block
runs, the `Completed`/`Errors with` summary line prints according to the
success flag, and the loop continues. -/
def runFrom {α : Type} (retrieve : Int → Except String (List (String × String)))
    (decode : String → Except String α)
    (indexKeys : α → Except String (List String))
    (append : String → String → Option String) : List Int → RunResult
  | [] => ⟨[], [], none⟩
  | i :: rest =>
    match retrieve i with
    | .error msg => ⟨[Event.fatalRetrieval msg], [], some i⟩
    | .ok pairs =>
      let r := processIndex decode indexKeys append i pairs
      let t := runFrom retrieve decode indexKeys append rest
      ⟨r.1 ++ (if r.2.2 then Event.completed i else Event.errorsAt i) :: t.events,
       r.2.1 ++ t.attempts, t.fatal⟩

/-- The backfill run over the inclusive range `[s, e]`, as performed by
`main` after flag validation. -/
def runBackfill {α : Type} (retrieve : Int → Except String (List (String × String)))
    (decode : String → Except String α)
    (indexKeys : α → Except String (List String))
    (append : String → String → Option String) (s e : Int) : RunResult :=
  runFrom retrieve decode indexKeys append (indexRange s e)

/-- Retrieval oracle for concrete runs: index 1 is unreachable, every
other index holds no entries. -/
def retrieveW2 : Int → Except String (List (String × String)) :=
  fun i => if i = 1 then .error "down" else .ok []

/-- Retrieval oracle for concrete runs: every index holds one pair whose
body the decoder below rejects. -/
def retrieveW3 : Int → Except String (List (String × String)) :=
  fun _ => .ok [("u", "bad")]

/-- Retrieval oracle for concrete runs: one index with a bad pair between
two good ones. -/
def retrieveW4 : Int → Except String (List (String × String)) :=
  fun _ => .ok [("a", "good"), ("b", "bad"), ("c", "good")]

/-- Decoder oracle for concrete runs: rejects the body `"bad"`, decodes
everything else to a one-key entry. -/
def decodeW : String → Except String (List String) :=
  fun b => if b = "bad" then .error "boom" else .ok ["k"]

/-- Key-extraction oracle for concrete runs: the decoded entry is its own
key list. -/
def keysW : List String → Except String (List String) :=
  fun e => .ok e

/-- Index-store oracle for concrete runs: every write succeeds. -/
def appendOkW : String → String → Option String :=
  fun _ _ => none

/-- Index-store oracle for concrete runs: every write fails. -/
def appendFailW : String → String → Option String :=
  fun _ _ => some "boom"

theorem string_mk_data (xs : List Char) : (String.mk xs).data = xs := rfl

theorem splitChar_of_not_mem (sep : Char) (t : List Char) (h : sep ∉ t) :
    splitChar sep t = [t] := by
  induction t with
  | nil => rfl
  | cons c cs ih =>
    simp only [List.mem_cons, not_or] at h
    have hcs : ¬c = sep := fun hc => h.1 hc.symm
    simp only [splitChar, if_neg hcs, ih h.2]

theorem splitChar_append (sep : Char) (t rest : List Char) (h : sep ∉ t) :
    splitChar sep (t ++ sep :: rest) = t :: splitChar sep rest := by
  induction t with
  | nil => simp [splitChar]
  | cons c cs ih =>
    simp only [List.mem_cons, not_or] at h
    have hcs : ¬c = sep := fun hc => h.1 hc.symm
    simp only [List.cons_append, splitChar, if_neg hcs]
    rw [List.append_eq, ih h.2]

theorem joinChar_split (sep : Char) (toks : List (List Char)) (hne : toks ≠ [])
    (h : ∀ t ∈ toks, sep ∉ t) : splitChar sep (joinChar sep toks) = toks := by
  induction toks with
  | nil => cases hne rfl
  | cons t ts ih =>
    cases ts with
    | nil => simpa [joinChar] using splitChar_of_not_mem sep t (h t (by simp))
    | cons t2 ts2 =>
      show splitChar sep (t ++ sep :: joinChar sep (t2 :: ts2)) = _
      rw [splitChar_append sep t _ (h t (by simp))]
      rw [ih (by simp) (fun u hu => h u (List.mem_cons_of_mem _ hu))]

theorem splitFirst_of_not_mem (sep : Char) (t : List Char) (h : sep ∉ t) :
    splitFirst sep t = none := by
  induction t with
  | nil => rfl
  | cons c cs ih =>
    simp only [List.mem_cons, not_or] at h
    have hcs : ¬c = sep := fun hc => h.1 hc.symm
    simp only [splitFirst, if_neg hcs, ih h.2]

theorem splitFirst_append (sep : Char) (a b : List Char) (h : sep ∉ a) :
    splitFirst sep (a ++ sep :: b) = some (a, b) := by
  induction a with
  | nil => simp [splitFirst]
  | cons c cs ih =>
    simp only [List.mem_cons, not_or] at h
    have hcs : ¬c = sep := fun hc => h.1 hc.symm
    simp only [List.cons_append, splitFirst, if_neg hcs]
    rw [List.append_eq, ih h.2]

theorem digitChar_spec : ∀ d < 10, (Char.ofNat (48 + d)).isDigit = true ∧ (Char.ofNat (48 + d)).toNat = 48 + d := by decide

theorem natDigitsAux_digits : ∀ (fuel n : Nat), ∀ c ∈ natDigitsAux fuel n, c.isDigit = true := by
  intro fuel
  induction fuel with
  | zero => intro n c hc; simp [natDigitsAux] at hc
  | succ fuel ih =>
    intro n c hc
    by_cases h : n < 10
    · simp only [natDigitsAux, if_pos h, List.mem_singleton] at hc
      subst hc
      exact (digitChar_spec n h).1
    · simp only [natDigitsAux, if_neg h, List.mem_append, List.mem_singleton] at hc
      rcases hc with hc | hc
      · exact ih _ c hc
      · subst hc
        exact (digitChar_spec (n % 10) (Nat.mod_lt _ (by norm_num))).1

theorem natDigitsAux_ne_nil (fuel n : Nat) : natDigitsAux (fuel + 1) n ≠ [] := by
  simp only [natDigitsAux]
  split
  · simp
  · simp

theorem natDigitsAux_foldl : ∀ (fuel n : Nat), n < 10 ^ fuel →
    ∀ a : Nat, (natDigitsAux fuel n).foldl (fun a c => a * 10 + (c.toNat - 48)) a =
      a * 10 ^ (natDigitsAux fuel n).length + n := by
  intro fuel
  induction fuel with
  | zero =>
    intro n hn a
    interval_cases n
    simp [natDigitsAux]
  | succ fuel ih =>
    intro n hn a
    by_cases h : n < 10
    · simp only [natDigitsAux, if_pos h, List.foldl_cons, List.foldl_nil,
        List.length_singleton, (digitChar_spec n h).2, pow_one]
      omega
    · have hdiv : n / 10 < 10 ^ fuel := by
        rw [Nat.div_lt_iff_lt_mul (by norm_num)]
        calc n < 10 ^ (fuel + 1) := hn
          _ = 10 ^ fuel * 10 := by ring
      simp only [natDigitsAux, if_neg h, List.foldl_append, List.foldl_cons, List.foldl_nil,
        List.length_append, List.length_singleton]
      rw [ih (n / 10) hdiv a]
      rw [(digitChar_spec (n % 10) (Nat.mod_lt _ (by norm_num))).2]
      have hmod : 48 + n % 10 - 48 = n % 10 := by omega
      rw [hmod]
      calc (a * 10 ^ (natDigitsAux fuel (n / 10)).length + n / 10) * 10 + n % 10
          = a * (10 ^ (natDigitsAux fuel (n / 10)).length * 10) + (n / 10 * 10 + n % 10) := by ring
        _ = a * 10 ^ ((natDigitsAux fuel (n / 10)).length + 1) + n := by
            rw [← pow_succ]
            have hdm : n / 10 * 10 + n % 10 = n := by omega
            rw [hdm]

theorem lt_ten_pow_succ (n : Nat) : n < 10 ^ (n + 1) :=
  calc n < 2 ^ n := Nat.lt_two_pow n
    _ ≤ 10 ^ n := Nat.pow_le_pow_left (by norm_num) n
    _ ≤ 10 ^ (n + 1) := Nat.pow_le_pow_right (by norm_num) (Nat.le_succ n)

theorem natDigits_digits (n : Nat) : ∀ c ∈ natDigits n, c.isDigit = true :=
  natDigitsAux_digits (n + 1) n

theorem natDigits_ne_nil (n : Nat) : natDigits n ≠ [] :=
  natDigitsAux_ne_nil n n

theorem decVal_natDigits (n : Nat) : decVal (natDigits n) = n := by
  have h := natDigitsAux_foldl (n + 1) n (lt_ten_pow_succ n) 0
  simpa [decVal, natDigits] using h

theorem validUInt64_ok {cs : List Char} (h : validUInt64 cs = true) :
    parseUint64 cs = .ok (decVal cs) := by
  simp only [validUInt64, Bool.and_eq_true, Bool.not_eq_true', decide_eq_true_eq] at h
  obtain ⟨⟨h1, h2⟩, h3⟩ := h
  have h1' : ¬cs.isEmpty = true := by rw [h1]; simp
  simp only [parseUint64, if_neg h1', if_pos h2, if_pos h3]

theorem parseUint64_ok_valid {cs : List Char} {v : Nat} (h : parseUint64 cs = .ok v) :
    validUInt64 cs = true := by
  unfold parseUint64 at h
  split at h
  · cases h
  · split at h
    · rename_i h1 h2
      split at h
      · rename_i h3
        simp only [validUInt64, Bool.and_eq_true, Bool.not_eq_true', decide_eq_true_eq]
        exact ⟨⟨by simpa using h1, h2⟩, h3⟩
      · cases h
    · cases h

theorem parseUint64_err {cs : List Char} (h : validUInt64 cs = false) :
    ∃ e, parseUint64 cs = .error e ∧ e.isFormatError = true := by
  cases he : parseUint64 cs with
  | error e =>
    refine ⟨e, rfl, ?_⟩
    unfold parseUint64 at he
    split at he
    · cases he; rfl
    · split at he
      · split at he
        · cases he
        · cases he; rfl
      · cases he; rfl
  | ok v => rw [parseUint64_ok_valid he] at h; cases h

theorem parseUint64_error_format {cs : List Char} {e : SetError}
    (h : parseUint64 cs = .error e) : e.isFormatError = true := by
  unfold parseUint64 at h
  split at h
  · cases h; rfl
  · split at h
    · split at h
      · cases h
      · cases h; rfl
    · cases h; rfl

theorem validUInt64_no_comma {cs : List Char} (h : validUInt64 cs = true) : ',' ∉ cs := by
  simp only [validUInt64, Bool.and_eq_true, List.all_eq_true] at h
  intro hc
  have := h.1.2 ',' hc
  simp at this

theorem validUInt64_no_eq {cs : List Char} (h : validUInt64 cs = true) : '=' ∉ cs := by
  simp only [validUInt64, Bool.and_eq_true, List.all_eq_true] at h
  intro hc
  have := h.1.2 '=' hc
  simp at this

theorem validUInt64_natDigits {n : Nat} (h : n < 2 ^ 64) : validUInt64 (natDigits n) = true := by
  simp only [validUInt64, Bool.and_eq_true, Bool.not_eq_true', decide_eq_true_eq, List.all_eq_true]
  refine ⟨⟨?_, fun c hc => natDigits_digits n c hc⟩, ?_⟩
  · simpa [List.isEmpty_eq_true] using natDigits_ne_nil n
  · rw [decVal_natDigits]; exact h

theorem parseHistorical_map (toks : List (List Char × List Char))
    (hv : ∀ p ∈ toks, validUInt64 p.1 = true ∧ validUInt64 p.2 = true) :
    parseHistorical (toks.map (fun p => p.1 ++ '=' :: p.2)) =
      .ok (toks.map (fun p => ⟨decVal p.1, decVal p.2⟩)) := by
  induction toks with
  | nil => rfl
  | cons p ps ih =>
    have h1 := (hv p (by simp)).1
    have h2 := (hv p (by simp)).2
    simp only [List.map_cons, parseHistorical,
      splitFirst_append '=' p.1 p.2 (validUInt64_no_eq h1),
      validUInt64_ok h1, validUInt64_ok h2, ih (fun q hq => hv q (by simp [hq]))]

theorem parseHistorical_error_format : ∀ (toks : List (List Char)) (e : SetError),
    parseHistorical toks = .error e → e.isFormatError = true := by
  intro toks
  induction toks with
  | nil => intro e h; cases h
  | cons t ts ih =>
    intro e h
    unfold parseHistorical at h
    split at h
    · cases h; rfl
    · split at h
      · cases h; exact parseUint64_error_format (by assumption)
      · split at h
        · cases h; exact parseUint64_error_format (by assumption)
        · split at h
          · cases h; exact ih _ (by assumption)
          · cases h

theorem parseHistorical_ok_tokens : ∀ (toks : List (List Char)) (hist : List LogRange),
    parseHistorical toks = .ok hist → ∀ t ∈ toks, badHistTok t = false := by
  intro toks
  induction toks with
  | nil => intro hist _ t ht; cases ht
  | cons u ts ih =>
    intro hist h t ht
    unfold parseHistorical at h
    split at h
    · cases h
    · rename_i a b hsf
      split at h
      · cases h
      · rename_i tid hpa
        split at h
        · cases h
        · rename_i len hpb
          split at h
          · cases h
          · rcases List.mem_cons.mp ht with rfl | ht2
            · simp [badHistTok, hsf, parseUint64_ok_valid hpa, parseUint64_ok_valid hpb]
            · exact ih _ (by assumption) t ht2

theorem findDuplicate_none : ∀ (l : List LogRange) (seen : List Nat),
    (l.map LogRange.TreeID).Nodup → (∀ x ∈ l.map LogRange.TreeID, x ∉ seen) →
    findDuplicate seen l = none := by
  intro l
  induction l with
  | nil => intro seen _ _; rfl
  | cons lr rest ih =>
    intro seen hnd hdisj
    simp only [List.map_cons, List.nodup_cons] at hnd
    simp only [findDuplicate, if_neg (hdisj lr.TreeID (by simp))]
    refine ih _ hnd.2 (fun x hx => ?_)
    simp only [List.mem_cons, not_or]
    exact ⟨fun hh => hnd.1 (hh ▸ hx), hdisj x (by simp [hx])⟩

theorem findDuplicate_some : ∀ (l : List LogRange) (seen ids₁ ids₂ : List Nat) (d : Nat),
    l.map LogRange.TreeID = ids₁ ++ d :: ids₂ → ids₁.Nodup →
    (∀ x ∈ ids₁, x ∉ seen) → (d ∈ seen ∨ d ∈ ids₁) →
    findDuplicate seen l = some d := by
  intro l
  induction l with
  | nil =>
    intro seen ids₁ ids₂ d hmap _ _ _
    exfalso
    cases ids₁ <;> simp at hmap
  | cons lr rest ih =>
    intro seen ids₁ ids₂ d hmap hnd hfresh hd
    cases ids₁ with
    | nil =>
      simp only [List.nil_append, List.map_cons] at hmap
      injection hmap with h1 h2
      have hd' : d ∈ seen := by
        rcases hd with hh | hh
        · exact hh
        · cases hh
      simp [findDuplicate, h1, hd']
    | cons x ids₁' =>
      simp only [List.cons_append, List.map_cons] at hmap
      injection hmap with h1 h2
      simp only [List.nodup_cons] at hnd
      have hx_not_seen : lr.TreeID ∉ seen := h1 ▸ hfresh x (by simp)
      simp only [findDuplicate, if_neg hx_not_seen]
      refine ih _ ids₁' ids₂ d h2 hnd.2 (fun y hy => ?_) ?_
      · simp only [List.mem_cons, not_or]
        refine ⟨fun hyx => hnd.1 (h1 ▸ hyx ▸ hy), hfresh y (by simp [hy])⟩
      · rcases hd with hh | hh
        · exact Or.inl (by simp [hh])
        · rcases List.mem_cons.mp hh with rfl | hh2
          · exact Or.inl (by simp [h1])
          · exact Or.inr hh2

theorem lastToken_concat : ∀ (l : List (List Char)) (x : List Char), lastToken (l ++ [x]) = x := by
  intro l
  induction l with
  | nil => intro x; rfl
  | cons a l ih =>
    intro x
    cases l with
    | nil => rfl
    | cons b l2 => exact ih x

theorem lastToken_mem : ∀ (l : List (List Char)), l ≠ [] → lastToken l ∈ l := by
  intro l
  induction l with
  | nil => intro h; cases h rfl
  | cons a l ih =>
    intro _
    cases l with
    | nil => simp [lastToken]
    | cons b l2 => exact List.mem_cons_of_mem a (ih (by simp))

theorem set_parse_core (l : LogRangesFlag) (toks : List (List Char × List Char))
    (lastTok : List Char)
    (hv : ∀ p ∈ toks, validUInt64 p.1 = true ∧ validUInt64 p.2 = true)
    (hl : validUInt64 lastTok = true) :
    LogRangesFlag.Set l (mkInput toks lastTok) =
      (match findDuplicate []
          (toks.map (fun p => (⟨decVal p.1, decVal p.2⟩ : LogRange)) ++ [⟨decVal lastTok, 0⟩]) with
       | some d => (⟨⟨[]⟩⟩, some (SetError.duplicateTreeID d))
       | none =>
         (⟨⟨toks.map (fun p => (⟨decVal p.1, decVal p.2⟩ : LogRange)) ++ [⟨decVal lastTok, 0⟩]⟩⟩,
          none)) := by
  have hsplit : splitChar ',' (mkInput toks lastTok).data =
      toks.map (fun p => p.1 ++ '=' :: p.2) ++ [lastTok] := by
    apply joinChar_split
    · simp
    · intro t ht
      rcases List.mem_append.mp ht with hm | hm
      · obtain ⟨p, hp, rfl⟩ := List.mem_map.mp hm
        intro hc
        rcases List.mem_append.mp hc with hc | hc
        · exact validUInt64_no_comma (hv p hp).1 hc
        · rcases List.mem_cons.mp hc with hc | hc
          · exact absurd hc (by decide)
          · exact validUInt64_no_comma (hv p hp).2 hc
      · rw [List.mem_singleton.mp hm]
        exact validUInt64_no_comma hl
  unfold LogRangesFlag.Set
  rw [hsplit, List.dropLast_concat, lastToken_concat, parseHistorical_map toks hv,
    validUInt64_ok hl]

theorem treeID_map_append (toks : List (List Char × List Char)) (lastTok : List Char) :
    ((toks.map (fun p => (⟨decVal p.1, decVal p.2⟩ : LogRange)) ++
        [(⟨decVal lastTok, 0⟩ : LogRange)]).map LogRange.TreeID) =
      toks.map (fun p => decVal p.1) ++ [decVal lastTok] := by
  simp [List.map_map]

theorem processIndex_append {α : Type} (decode : String → Except String α)
    (indexKeys : α → Except String (List String)) (append : String → String → Option String)
    (i : Int) (xs ys : List (String × String)) :
    processIndex decode indexKeys append i (xs ++ ys) =
      ((processIndex decode indexKeys append i xs).1 ++
         (processIndex decode indexKeys append i ys).1,
       (processIndex decode indexKeys append i xs).2.1 ++
         (processIndex decode indexKeys append i ys).2.1,
       (processIndex decode indexKeys append i xs).2.2 &&
         (processIndex decode indexKeys append i ys).2.2) := by
  induction xs with
  | nil => simp [processIndex]
  | cons p xs ih =>
    simp only [List.cons_append, processIndex]
    rw [List.append_eq, ih]
    simp [List.append_assoc, Bool.and_assoc]

theorem processKeys_success_iff (append : String → String → Option String) (i : Int)
    (uuid : String) (ks : List String) :
    (processKeys append i uuid ks).2.2 = true ↔
      ∀ ev ∈ (processKeys append i uuid ks).1, ev.isFailure = false := by
  induction ks with
  | nil => simp [processKeys]
  | cons k ks ih =>
    simp only [processKeys]
    cases h : append k uuid with
    | none => simpa [Event.isFailure] using ih
    | some msg => simp [Event.isFailure]

theorem processPair_success_iff {α : Type} (decode : String → Except String α)
    (indexKeys : α → Except String (List String)) (append : String → String → Option String)
    (i : Int) (uuid body : String) :
    (processPair decode indexKeys append i uuid body).2.2 = true ↔
      ∀ ev ∈ (processPair decode indexKeys append i uuid body).1, ev.isFailure = false := by
  unfold processPair
  split
  · simp [Event.isFailure]
  · split
    · simp [Event.isFailure]
    · exact processKeys_success_iff append i uuid _

theorem processIndex_success_iff {α : Type} (decode : String → Except String α)
    (indexKeys : α → Except String (List String)) (append : String → String → Option String)
    (i : Int) (pairs : List (String × String)) :
    (processIndex decode indexKeys append i pairs).2.2 = true ↔
      ∀ ev ∈ (processIndex decode indexKeys append i pairs).1, ev.isFailure = false := by
  induction pairs with
  | nil => simp [processIndex]
  | cons p ps ih =>
    simp only [processIndex, Bool.and_eq_true, List.mem_append]
    rw [ih, processPair_success_iff]
    constructor
    · intro h ev hev
      rcases hev with hev | hev
      · exact h.1 ev hev
      · exact h.2 ev hev
    · intro h
      exact ⟨fun ev hev => h ev (Or.inl hev), fun ev hev => h ev (Or.inr hev)⟩

theorem runFrom_append_of_ok {α : Type} (retrieve : Int → Except String (List (String × String)))
    (decode : String → Except String α) (indexKeys : α → Except String (List String))
    (append : String → String → Option String) (L₁ L₂ : List Int)
    (h : ∀ j ∈ L₁, ∃ prs, retrieve j = Except.ok prs) :
    runFrom retrieve decode indexKeys append (L₁ ++ L₂) =
      ⟨(runFrom retrieve decode indexKeys append L₁).events ++
         (runFrom retrieve decode indexKeys append L₂).events,
       (runFrom retrieve decode indexKeys append L₁).attempts ++
         (runFrom retrieve decode indexKeys append L₂).attempts,
       (runFrom retrieve decode indexKeys append L₂).fatal⟩ := by
  induction L₁ with
  | nil => simp [runFrom]
  | cons i L ih =>
    obtain ⟨prs, hprs⟩ := h i (by simp)
    simp only [List.cons_append, runFrom, hprs]
    rw [List.append_eq, ih (fun j hj => h j (by simp [hj]))]
    simp [List.append_assoc]

theorem runFrom_fatal_none {α : Type} (retrieve : Int → Except String (List (String × String)))
    (decode : String → Except String α) (indexKeys : α → Except String (List String))
    (append : String → String → Option String) (L : List Int)
    (h : ∀ j ∈ L, ∃ prs, retrieve j = Except.ok prs) :
    (runFrom retrieve decode indexKeys append L).fatal = none := by
  induction L with
  | nil => rfl
  | cons i L ih =>
    obtain ⟨prs, hprs⟩ := h i (by simp)
    simp only [runFrom, hprs]
    exact ih (fun j hj => h j (by simp [hj]))

theorem intRangeAux_split (a : Nat) : ∀ (b : Nat) (s : Int),
    intRangeAux s (a + 1 + b) =
      intRangeAux s a ++ (s + (a : Int)) :: intRangeAux (s + (a : Int) + 1) b := by
  induction a with
  | zero =>
    intro b s
    have h1 : 0 + 1 + b = b + 1 := by omega
    rw [h1]
    simp [intRangeAux]
  | succ a ih =>
    intro b s
    have h1 : a + 1 + 1 + b = (a + 1 + b) + 1 := by omega
    rw [h1]
    simp only [intRangeAux, List.cons_append]
    rw [ih b (s + 1)]
    have e1 : s + 1 + (a : Int) = s + ((a : Nat) + 1 : Nat) := by push_cast; ring
    rw [e1]

theorem mem_intRangeAux : ∀ (n : Nat) (s j : Int), j ∈ intRangeAux s n → s ≤ j ∧ j < s + n := by
  intro n
  induction n with
  | zero => intro s j h; simp [intRangeAux] at h
  | succ n ih =>
    intro s j h
    simp only [intRangeAux, List.mem_cons] at h
    rcases h with rfl | h
    · constructor
      · exact le_refl j
      · push_cast
        omega
    · have := ih (s + 1) j h
      push_cast at this ⊢
      omega

theorem indexRange_split (s e i : Int) (h1 : s ≤ i) (h2 : i ≤ e) :
    indexRange s e = indexRange s (i - 1) ++ i :: indexRange (i + 1) e := by
  unfold indexRange
  have ha : (i - 1 + 1 - s).toNat = (i - s).toNat := by omega
  have hb : (e + 1 - (i + 1)).toNat = (e - i).toNat := by omega
  have hn : (e + 1 - s).toNat = (i - s).toNat + 1 + (e - i).toNat := by omega
  rw [ha, hb, hn, intRangeAux_split]
  have hsi : s + (((i - s).toNat : Nat) : Int) = i := by omega
  rw [hsi]

theorem mem_indexRange {s e j : Int} (h : j ∈ indexRange s e) : s ≤ j ∧ j ≤ e := by
  have := mem_intRangeAux _ s j h
  omega

theorem set_error_shape (l : LogRangesFlag) (s : String) :
    (LogRangesFlag.Set l s).2 = none ∨ (LogRangesFlag.Set l s).1 = ⟨⟨[]⟩⟩ := by
  unfold LogRangesFlag.Set
  split
  · exact Or.inr rfl
  · split
    · exact Or.inr rfl
    · split
      · exact Or.inr rfl
      · exact Or.inl rfl

theorem set_ok_shape (l : LogRangesFlag) (s : String) (l' : LogRangesFlag)
    (h : LogRangesFlag.Set l s = (l', none)) :
    ∃ hist lastTid, l' = ⟨⟨hist ++ [⟨lastTid, 0⟩]⟩⟩ := by
  unfold LogRangesFlag.Set at h
  split at h
  · simp at h
  · split at h
    · simp at h
    · split at h
      · simp at h
      · have h1 := congrArg Prod.fst h
        simp at h1
        exact ⟨_, _, h1.symm⟩

theorem set_on_render_errors (l0 : LogRangesFlag) (lst : List LogRange) (hne : lst ≠ []) :
    ((LogRangesFlag.Set l0 (LogRangesFlag.String ⟨⟨lst⟩⟩)).2).isSome = true := by
  have hsplit : splitChar ',' (LogRangesFlag.String ⟨⟨lst⟩⟩).data = lst.map renderRange := by
    apply joinChar_split
    · simpa using hne
    · intro t ht
      obtain ⟨r, hr, rfl⟩ := List.mem_map.mp ht
      intro hc
      rcases List.mem_append.mp hc with hc | hc
      · exact absurd (natDigits_digits r.TreeID ',' hc) (by decide)
      · rcases List.mem_cons.mp hc with hc | hc
        · exact absurd hc (by decide)
        · exact absurd (natDigits_digits r.TreeLength ',' hc) (by decide)
  have hmem : lastToken (lst.map renderRange) ∈ lst.map renderRange :=
    lastToken_mem _ (by simpa using hne)
  obtain ⟨r, hr, hlast⟩ := List.mem_map.mp hmem
  have heqmem : '=' ∈ lastToken (lst.map renderRange) := by
    rw [← hlast]
    exact List.mem_append.mpr (Or.inr (by simp))
  unfold LogRangesFlag.Set
  rw [hsplit]
  cases hph : parseHistorical (lst.map renderRange).dropLast with
  | error e => simp
  | ok hist =>
    cases hpu : parseUint64 (lastToken (lst.map renderRange)) with
    | error e => simp
    | ok v =>
      exfalso
      have hval := parseUint64_ok_valid hpu
      simp only [validUInt64, Bool.and_eq_true, List.all_eq_true] at hval
      exact absurd (hval.1.2 '=' heqmem) (by decide)

/-- Claim C10: `Set` composed with `String` always fails.  Every
configuration reachable through a successful `Set` holds at least one
range and ends in the active range with tree length `0`; `String` renders
that last range as `treeID=0`, which the re-parse requires to be a bare
integer, so `Set` on the rendered string returns an error for every
reachable configuration. -/
theorem C10_render_not_reparseable (l l' : LogRangesFlag) (s : String)
    (h : LogRangesFlag.Set l s = (l', none)) :
    l'.Ranges.Ranges ≠ [] ∧
    ((LogRangesFlag.Set l' (LogRangesFlag.String l')).2).isSome = true := by
  obtain ⟨hist, lastTid, rfl⟩ := set_ok_shape l s l' h
  constructor
  · simp
  · exact set_on_render_errors _ _ (by simp)

theorem C10_witness :
    ((⟨⟨[⟨1, 100⟩, ⟨2, 0⟩]⟩⟩ : LogRangesFlag)).Ranges.Ranges ≠ [] ∧
    ((LogRangesFlag.Set ⟨⟨[⟨1, 100⟩, ⟨2, 0⟩]⟩⟩
        (LogRangesFlag.String ⟨⟨[⟨1, 100⟩, ⟨2, 0⟩]⟩⟩)).2).isSome = true :=
  C10_render_not_reparseable ⟨⟨[]⟩⟩ ⟨⟨[⟨1, 100⟩, ⟨2, 0⟩]⟩⟩ "1=100,2" (by decide)
/-- Claim C1: a comma-separated input whose first tokens are `a=b` with both
halves valid decimal uint64 values, whose last token is a bare valid decimal
uint64, and whose tree ids are pairwise distinct is accepted by
`LogRangesFlag.Set`, which returns the shards in input order: each non-last
token as a historical range with the given tree id and length, and the last
token as the active range with tree length left at the zero value. -/
theorem C1_set_accepts_valid_input (l : LogRangesFlag)
    (toks : List (List Char × List Char)) (lastTok : List Char)
    (hv : ∀ p ∈ toks, validUInt64 p.1 = true ∧ validUInt64 p.2 = true)
    (hl : validUInt64 lastTok = true)
    (hnd : (toks.map (fun p => decVal p.1) ++ [decVal lastTok]).Nodup) :
    LogRangesFlag.Set l (mkInput toks lastTok) =
      (⟨⟨toks.map (fun p => (⟨decVal p.1, decVal p.2⟩ : LogRange)) ++
          [⟨decVal lastTok, 0⟩]⟩⟩, none) := by
  rw [set_parse_core l toks lastTok hv hl]
  rw [findDuplicate_none _ [] (by rw [treeID_map_append]; exact hnd) (by simp)]

theorem C1_witness :
    LogRangesFlag.Set ⟨⟨[]⟩⟩ (mkInput [(['1'], ['1', '0', '0']), (['2'], ['5', '0'])] ['3']) =
      (⟨⟨[⟨decVal ['1'], decVal ['1', '0', '0']⟩, ⟨decVal ['2'], decVal ['5', '0']⟩,
          ⟨decVal ['3'], 0⟩]⟩⟩, none) ∧
    mkInput [(['1'], ['1', '0', '0']), (['2'], ['5', '0'])] ['3'] = "1=100,2=50,3" :=
  ⟨C1_set_accepts_valid_input ⟨⟨[]⟩⟩ _ _ (by decide) (by decide) (by decide), by decide⟩

/-- Claim C5: when the parsed shard sequence repeats a tree id, `Set` fails
with the duplicate-tree-id error naming the id at the first colliding
position in sequence order, and leaves the empty configuration behind.  The
first collision is characterised by the decomposition of the id sequence as
`ids₁ ++ d :: ids₂` with `ids₁` duplicate-free and `d` occurring in
`ids₁`. -/
theorem C5_set_reports_first_duplicate (l : LogRangesFlag)
    (toks : List (List Char × List Char)) (lastTok : List Char)
    (hv : ∀ p ∈ toks, validUInt64 p.1 = true ∧ validUInt64 p.2 = true)
    (hl : validUInt64 lastTok = true)
    (ids₁ ids₂ : List Nat) (d : Nat)
    (hdec : toks.map (fun p => decVal p.1) ++ [decVal lastTok] = ids₁ ++ d :: ids₂)
    (hnd : ids₁.Nodup) (hmem : d ∈ ids₁) :
    LogRangesFlag.Set l (mkInput toks lastTok) =
      (⟨⟨[]⟩⟩, some (SetError.duplicateTreeID d)) := by
  rw [set_parse_core l toks lastTok hv hl]
  rw [findDuplicate_some _ [] ids₁ ids₂ d (by rw [treeID_map_append]; exact hdec) hnd
    (by simp) (Or.inr hmem)]

theorem C5_witness :
    LogRangesFlag.Set ⟨⟨[]⟩⟩ (mkInput [(['1'], ['1', '0', '0']), (['1'], ['5', '0'])] ['2']) =
      (⟨⟨[]⟩⟩, some (SetError.duplicateTreeID (decVal ['1']))) ∧
    mkInput [(['1'], ['1', '0', '0']), (['1'], ['5', '0'])] ['2'] = "1=100,1=50,2" :=
  ⟨C5_set_reports_first_duplicate ⟨⟨[]⟩⟩ _ _ (by decide) (by decide)
      [decVal ['1']] [decVal ['2']] (decVal ['1']) (by decide) (by decide) (by decide),
    by decide⟩

/-- Claim C6 counterexample: the input `01=100,2` is successfully parsed,
yet the rendered configuration is `1=100,2=0`, whose first comma token
`1=100` differs from the source historical token `01=100` — so a
successfully parsed config does not always reproduce every historical
token of the source input exactly. -/
theorem C6_counterexample :
    (LogRangesFlag.Set ⟨⟨[]⟩⟩ "01=100,2").2 = none ∧
    LogRangesFlag.String ((LogRangesFlag.Set ⟨⟨[]⟩⟩ "01=100,2").1) = "1=100,2=0" ∧
    (splitChar ','
        (LogRangesFlag.String ((LogRangesFlag.Set ⟨⟨[]⟩⟩ "01=100,2").1)).data).headD [] ≠
      ("01=100").data := by
  refine ⟨by decide, by decide, by decide⟩

/-- Claim C6 as amended: for every successfully parsed config whose source
tokens are written in canonical decimal (no leading zeros), `String`
renders each shard as `treeID=length` joined with commas in original
order, reproducing every historical token of the source input exactly and
rendering the active shard with length `0`. -/
theorem C6_amended_canonical_render (l : LogRangesFlag) (hist : List (Nat × Nat)) (lastT : Nat)
    (hv : ∀ p ∈ hist, p.1 < 2 ^ 64 ∧ p.2 < 2 ^ 64) (hl : lastT < 2 ^ 64)
    (hnd : (hist.map Prod.fst ++ [lastT]).Nodup) :
    (LogRangesFlag.Set l (mkCanonInput hist lastT)).2 = none ∧
    LogRangesFlag.String ((LogRangesFlag.Set l (mkCanonInput hist lastT)).1) =
      String.mk (joinChar ',' (hist.map canonTok ++ [canonTok (lastT, 0)])) := by
  have hmk : mkCanonInput hist lastT =
      mkInput (hist.map (fun p => (natDigits p.1, natDigits p.2))) (natDigits lastT) := by
    unfold mkCanonInput mkInput
    rw [List.map_map]
    have hfun : List.map canonTok hist =
        List.map ((fun p => p.1 ++ '=' :: p.2) ∘
          fun (p : Nat × Nat) => (natDigits p.1, natDigits p.2)) hist :=
      List.map_congr_left (fun p hp => rfl)
    rw [hfun]
  have hv' : ∀ q ∈ hist.map (fun p => (natDigits p.1, natDigits p.2)),
      validUInt64 q.1 = true ∧ validUInt64 q.2 = true := by
    intro q hq
    obtain ⟨p, hp, rfl⟩ := List.mem_map.mp hq
    exact ⟨validUInt64_natDigits (hv p hp).1, validUInt64_natDigits (hv p hp).2⟩
  have hset2 : LogRangesFlag.Set l (mkCanonInput hist lastT) =
      (⟨⟨hist.map (fun p => (⟨p.1, p.2⟩ : LogRange)) ++ [⟨lastT, 0⟩]⟩⟩, none) := by
    rw [hmk, set_parse_core l _ _ hv' (validUInt64_natDigits hl)]
    have hr : (hist.map (fun p => (natDigits p.1, natDigits p.2))).map
        (fun p => (⟨decVal p.1, decVal p.2⟩ : LogRange)) =
        hist.map (fun p => (⟨p.1, p.2⟩ : LogRange)) := by
      rw [List.map_map]
      exact List.map_congr_left (fun p hp => by simp [decVal_natDigits])
    rw [hr, decVal_natDigits]
    rw [findDuplicate_none _ []
      (by
        have hid : ((hist.map (fun p => (⟨p.1, p.2⟩ : LogRange)) ++
            [(⟨lastT, 0⟩ : LogRange)]).map LogRange.TreeID) =
            hist.map Prod.fst ++ [lastT] := by
          simp [List.map_map]
        rw [hid]
        exact hnd)
      (by simp)]
  refine ⟨by rw [hset2], ?_⟩
  rw [hset2]
  unfold LogRangesFlag.String
  congr 1
  simp only [List.map_append, List.map_map, List.map_cons, List.map_nil]
  rfl

theorem C6_witness :
    ((LogRangesFlag.Set ⟨⟨[]⟩⟩ (mkCanonInput [(1, 100)] 2)).2 = none ∧
      LogRangesFlag.String ((LogRangesFlag.Set ⟨⟨[]⟩⟩ (mkCanonInput [(1, 100)] 2)).1) =
        String.mk (joinChar ',' ([(1, 100)].map canonTok ++ [canonTok (2, 0)]))) ∧
    mkCanonInput [(1, 100)] 2 = "1=100,2" ∧
    String.mk (joinChar ',' ([(1, 100)].map canonTok ++ [canonTok (2, 0)])) = "1=100,2=0" :=
  ⟨C6_amended_canonical_render ⟨⟨[]⟩⟩ [(1, 100)] 2 (by decide) (by decide) (by decide),
    by decide, by decide⟩

/-- Claim C8: `Set` fails with a format-category error — never success and
never the duplicate-tree-id error — whenever some non-last token has no
`=` or has a half rejected by `parseUint64`, or the bare last token is
rejected by `parseUint64`; the receiver is left holding the empty
configuration. -/
theorem C8_set_format_errors (l : LogRangesFlag) (s : String)
    (h : (∃ t ∈ (splitChar ',' s.data).dropLast, badHistTok t = true) ∨
      validUInt64 (lastToken (splitChar ',' s.data)) = false) :
    ∃ e, LogRangesFlag.Set l s = (⟨⟨[]⟩⟩, some e) ∧ e.isFormatError = true := by
  unfold LogRangesFlag.Set
  cases hph : parseHistorical (splitChar ',' s.data).dropLast with
  | error e => exact ⟨e, by simp, parseHistorical_error_format _ e hph⟩
  | ok hist =>
    have hgood := parseHistorical_ok_tokens _ hist hph
    rcases h with ⟨t, ht, hbad⟩ | hlast
    · rw [hgood t ht] at hbad
      cases hbad
    · obtain ⟨e, he, hef⟩ := parseUint64_err hlast
      refine ⟨e, ?_, hef⟩
      rw [he]

theorem C8_witness :
    (∃ e, LogRangesFlag.Set ⟨⟨[]⟩⟩ "1,2=50" = (⟨⟨[]⟩⟩, some e) ∧ e.isFormatError = true) ∧
    (∃ e, LogRangesFlag.Set ⟨⟨[]⟩⟩ "abc=100,2" = (⟨⟨[]⟩⟩, some e) ∧ e.isFormatError = true) :=
  ⟨C8_set_format_errors ⟨⟨[]⟩⟩ "1,2=50" (by decide),
    C8_set_format_errors ⟨⟨[]⟩⟩ "abc=100,2" (by decide)⟩

/-- Claim C9: `Set` is not atomic on error — the receiver is reset before
parsing, so whenever `Set` returns an error the receiver afterwards holds
the empty configuration, whatever it held before the call. -/
theorem C9_set_resets_receiver_on_error (l : LogRangesFlag) (s : String)
    (h : ((LogRangesFlag.Set l s).2).isSome = true) :
    (LogRangesFlag.Set l s).1 = ⟨⟨[]⟩⟩ := by
  rcases set_error_shape l s with h0 | h0
  · rw [h0] at h
    cases h
  · exact h0

theorem C9_witness :
    (LogRangesFlag.Set ⟨⟨[⟨7, 7⟩]⟩⟩ "x").1 = ⟨⟨[]⟩⟩ :=
  C9_set_resets_receiver_on_error ⟨⟨[⟨7, 7⟩]⟩⟩ "x" (by decide)

/-- Claim C2: a retrieval failure at index `i` of the run over
`[s, e]` is fatal to the whole run: the trace equals the trace of the run
over `[s, i - 1]` followed by the single fatal-retrieval event — so the
outcomes already emitted for indices below `i` remain, index `i` gets no
per-index outcome, and no index above `i` is attempted — and the prefix
run itself never aborts, whatever the decode, key-extraction and write
oracles do, because retrieval is the only fatal failure point of the
per-index loop. -/
theorem C2_retrieval_failure_aborts_run {α : Type}
    (retrieve : Int → Except String (List (String × String)))
    (decode : String → Except String α) (indexKeys : α → Except String (List String))
    (append : String → String → Option String)
    (s e i : Int) (msg : String)
    (hsi : s ≤ i) (hie : i ≤ e)
    (hfail : retrieve i = Except.error msg)
    (hok : ∀ j, s ≤ j → j < i → ∃ prs, retrieve j = Except.ok prs) :
    runBackfill retrieve decode indexKeys append s e =
      ⟨(runBackfill retrieve decode indexKeys append s (i - 1)).events ++
         [Event.fatalRetrieval msg],
       (runBackfill retrieve decode indexKeys append s (i - 1)).attempts,
       some i⟩ ∧
    (runBackfill retrieve decode indexKeys append s (i - 1)).fatal = none := by
  have hok' : ∀ j ∈ indexRange s (i - 1), ∃ prs, retrieve j = Except.ok prs := by
    intro j hj
    have hm := mem_indexRange hj
    exact hok j hm.1 (by omega)
  constructor
  · unfold runBackfill
    rw [indexRange_split s e i hsi hie,
      runFrom_append_of_ok retrieve decode indexKeys append _ _ hok']
    have hfatrun : runFrom retrieve decode indexKeys append (i :: indexRange (i + 1) e) =
        ⟨[Event.fatalRetrieval msg], [], some i⟩ := by
      simp [runFrom, hfail]
    rw [hfatrun]
    simp
  · exact runFrom_fatal_none retrieve decode indexKeys append _ hok'

theorem C2_witness :
    runBackfill retrieveW2 decodeW keysW appendOkW 0 2 =
      ⟨(runBackfill retrieveW2 decodeW keysW appendOkW 0 (1 - 1)).events ++
         [Event.fatalRetrieval "down"],
       (runBackfill retrieveW2 decodeW keysW appendOkW 0 (1 - 1)).attempts,
       some 1⟩ ∧
    (runBackfill retrieveW2 decodeW keysW appendOkW 0 (1 - 1)).fatal = none :=
  C2_retrieval_failure_aborts_run retrieveW2 decodeW keysW appendOkW 0 2 1 "down"
    (by decide) (by decide) rfl
    (fun j h1 h2 => ⟨[], by
      have hj : j = 0 := by omega
      rw [hj]
      rfl⟩)

/-- Claim C3: for an index `i` whose retrieval succeeds, the run emits the
per-index block followed by `Completed` exactly when no decode,
key-extraction or write failure event was recorded in the block and
`Errors with` otherwise, then continues with the remaining indices
whatever the outcome was; retrieval of zero pairs yields the success
outcome. -/
theorem C3_index_outcome_iff_no_failures {α : Type}
    (retrieve : Int → Except String (List (String × String)))
    (decode : String → Except String α) (indexKeys : α → Except String (List String))
    (append : String → String → Option String)
    (i : Int) (rest : List Int) (pairs : List (String × String))
    (h : retrieve i = Except.ok pairs) :
    runFrom retrieve decode indexKeys append (i :: rest) =
      ⟨(processIndex decode indexKeys append i pairs).1 ++
         (if (processIndex decode indexKeys append i pairs).2.2 then Event.completed i
          else Event.errorsAt i) :: (runFrom retrieve decode indexKeys append rest).events,
       (processIndex decode indexKeys append i pairs).2.1 ++
         (runFrom retrieve decode indexKeys append rest).attempts,
       (runFrom retrieve decode indexKeys append rest).fatal⟩ ∧
    ((processIndex decode indexKeys append i pairs).2.2 = true ↔
      ∀ ev ∈ (processIndex decode indexKeys append i pairs).1, ev.isFailure = false) ∧
    processIndex decode indexKeys append i ([] : List (String × String)) = ([], [], true) :=
  ⟨by simp [runFrom, h], processIndex_success_iff decode indexKeys append i pairs, rfl⟩

theorem C3_witness :
    (runFrom retrieveW3 decodeW keysW appendOkW (0 :: []) =
      ⟨(processIndex decodeW keysW appendOkW 0 [("u", "bad")]).1 ++
         (if (processIndex decodeW keysW appendOkW 0 [("u", "bad")]).2.2 then Event.completed 0
          else Event.errorsAt 0) :: (runFrom retrieveW3 decodeW keysW appendOkW []).events,
       (processIndex decodeW keysW appendOkW 0 [("u", "bad")]).2.1 ++
         (runFrom retrieveW3 decodeW keysW appendOkW []).attempts,
       (runFrom retrieveW3 decodeW keysW appendOkW []).fatal⟩ ∧
      ((processIndex decodeW keysW appendOkW 0 [("u", "bad")]).2.2 = true ↔
        ∀ ev ∈ (processIndex decodeW keysW appendOkW 0 [("u", "bad")]).1, ev.isFailure = false) ∧
      processIndex decodeW keysW appendOkW 0 ([] : List (String × String)) = ([], [], true)) :=
  C3_index_outcome_iff_no_failures retrieveW3 decodeW keysW appendOkW 0 [] [("u", "bad")] rfl

/-- Claim C4: a decode failure on pair `(e1, p)` records exactly one
decode-failure event attributed to `e1`, aborts neither the index nor the
run, leaves all remaining pairs of the index processed as usual, forces
the index outcome to failure, and contributes exactly `e1`'s error to the
failure events of the index; the run's fatal state is untouched. -/
theorem C4_decode_failure_tolerated {α : Type}
    (retrieve : Int → Except String (List (String × String)))
    (decode : String → Except String α) (indexKeys : α → Except String (List String))
    (append : String → String → Option String)
    (i : Int) (rest : List Int) (l₁ l₂ : List (String × String)) (e1 p msg : String)
    (hd : decode p = Except.error msg)
    (hr : retrieve i = Except.ok (l₁ ++ (e1, p) :: l₂)) :
    processIndex decode indexKeys append i (l₁ ++ (e1, p) :: l₂) =
      ((processIndex decode indexKeys append i l₁).1 ++ Event.unmarshalFailure e1 msg ::
         (processIndex decode indexKeys append i l₂).1,
       (processIndex decode indexKeys append i l₁).2.1 ++
         (processIndex decode indexKeys append i l₂).2.1,
       false) ∧
    (processIndex decode indexKeys append i (l₁ ++ (e1, p) :: l₂)).1.filter Event.isFailure =
      (processIndex decode indexKeys append i l₁).1.filter Event.isFailure ++
        Event.unmarshalFailure e1 msg ::
          (processIndex decode indexKeys append i l₂).1.filter Event.isFailure ∧
    (runFrom retrieve decode indexKeys append (i :: rest)).fatal =
      (runFrom retrieve decode indexKeys append rest).fatal := by
  have hpair : processPair decode indexKeys append i e1 p =
      ([Event.unmarshalFailure e1 msg], [], false) := by
    simp [processPair, hd]
  have hmain : processIndex decode indexKeys append i (l₁ ++ (e1, p) :: l₂) =
      ((processIndex decode indexKeys append i l₁).1 ++ Event.unmarshalFailure e1 msg ::
         (processIndex decode indexKeys append i l₂).1,
       (processIndex decode indexKeys append i l₁).2.1 ++
         (processIndex decode indexKeys append i l₂).2.1,
       false) := by
    rw [processIndex_append]
    simp [processIndex, hpair]
  refine ⟨hmain, ?_, by simp [runFrom, hr]⟩
  rw [hmain]
  simp [List.filter_append, Event.isFailure]

theorem C4_witness :
    (processIndex decodeW keysW appendOkW 0 ([("a", "good")] ++ ("b", "bad") :: [("c", "good")]) =
      ((processIndex decodeW keysW appendOkW 0 [("a", "good")]).1 ++
         Event.unmarshalFailure "b" "boom" ::
           (processIndex decodeW keysW appendOkW 0 [("c", "good")]).1,
       (processIndex decodeW keysW appendOkW 0 [("a", "good")]).2.1 ++
         (processIndex decodeW keysW appendOkW 0 [("c", "good")]).2.1,
       false) ∧
      (processIndex decodeW keysW appendOkW 0
          ([("a", "good")] ++ ("b", "bad") :: [("c", "good")])).1.filter Event.isFailure =
        (processIndex decodeW keysW appendOkW 0 [("a", "good")]).1.filter Event.isFailure ++
          Event.unmarshalFailure "b" "boom" ::
            (processIndex decodeW keysW appendOkW 0 [("c", "good")]).1.filter Event.isFailure ∧
      (runFrom retrieveW4 decodeW keysW appendOkW (0 :: [])).fatal =
        (runFrom retrieveW4 decodeW keysW appendOkW []).fatal) :=
  C4_decode_failure_tolerated retrieveW4 decodeW keysW appendOkW 0 [] [("a", "good")]
    [("c", "good")] "b" "bad" "boom" rfl rfl

/-- Claim C7, settled as a code bug: in the key loop, exactly one index
write is attempted per extracted key and a write failure records the
insert error and proceeds — both as the claim says — but the per-write
`Uploaded Redis entry` success report is printed unconditionally, because
the source has no `continue` after the error branch.  On an entry with one
key whose write fails, the trace contains the upload report immediately
after the insert failure, contradicting the claim that success reports are
emitted exactly for the writes that succeed. -/
theorem C7_upload_report_printed_for_failed_write :
    processPair decodeW keysW appendFailW 0 "u" "good" =
      ([Event.insertFailure "u" "k" "boom", Event.uploaded "u" 0 "k"], [("k", "u")], false) :=
  rfl
